import Mathlib

/-!
Verification development for the stormfinder subdomain-enumeration engine.

The definitions below are shallow embeddings of the Go code:
* `replacerReplace` / `normalise` embed the `strings.NewReplacer` value
  `replacer` and its use in `pkg/runner/enumerate.go`;
* `aggregateStep` embeds the aggregation loop body of
  `EnumerateSingleDomainWithCtx` (wildcard removal disabled);
* `enhancedStep` embeds the enhanced-result insertion loop of the same
  function;
* `testSubdomain` / `runPermutations` embed `pkg/runner/enhanced.go`;
* `bruteWorkerStep` / `bruteForce` / `detectWildcards` embed
  `pkg/bruteforce`;
* `cacheGet` / `cacheSet` embed `pkg/cache/cache.go`;
* `enhancedEnumerate` embeds `EnhancedEnumerator.EnhancedEnumerate`.

Go maps are modelled as association lists whose insert overwrites an
existing binding in place, so key sets behave exactly like Go map key
sets.  Time is modelled as an integer clock, DNS as an oracle function.
-/

namespace Stormfinder

/-! ### The aggregator's normalisation (`replacer` in enumerate.go)

The Go value is
`strings.NewReplacer("/", "", "•.", "", "•", "", "*.", "", "http://", "", "https://", "")`.
Go's Replacer scans the input left to right; at each position the
earliest-listed pattern that matches is removed and scanning resumes
after it, otherwise the byte is kept.  All patterns are valid UTF-8 and
none can start inside a multi-byte character, so the byte-level scan
coincides with this character-level one. -/

def replacerPatterns : List (List Char) :=
  [['/'], ['•', '.'], ['•'], ['*', '.'],
   ['h', 't', 't', 'p', ':', '/', '/'],
   ['h', 't', 't', 'p', 's', ':', '/', '/']]

/-- At one scan position, the earliest-listed pattern that matches there
(Go's generic Replacer resolves pattern overlap by argument order). -/
def firstMatch (l : List Char) : Option (List Char) :=
  replacerPatterns.find? (fun p => p.isPrefixOf l)

/-- The scan loop of `Replacer.Replace`, with fuel for structural
termination; `fuel ≥ l.length` always suffices because every step
consumes at least one character. -/
def replacerGo : Nat → List Char → List Char
  | 0, l => l
  | _, [] => []
  | fuel + 1, c :: rest =>
      match firstMatch (c :: rest) with
      | some p => replacerGo fuel ((c :: rest).drop p.length)
      | none => c :: replacerGo fuel rest

def replacerReplace (l : List Char) : List Char :=
  replacerGo l.length l

/-- Normalisation applied to every incoming result value
(`subdomain := replacer.Replace(result.Value)` in enumerate.go). -/
def normalise (s : String) : String :=
  ⟨replacerReplace s.data⟩

theorem replacerPatterns_ne_nil : ∀ p ∈ replacerPatterns, 1 ≤ p.length := by decide

theorem subset_of_isPrefixOf : ∀ (p l : List Char), p.isPrefixOf l = true →
    ∀ a ∈ p, a ∈ l := by
  intro p
  induction p with
  | nil => intro l _ a ha; cases ha
  | cons b bs ih =>
      intro l h a ha
      cases l with
      | nil => simp [List.isPrefixOf] at h
      | cons c cs =>
          simp only [List.isPrefixOf, Bool.and_eq_true, beq_iff_eq] at h
          rcases List.mem_cons.mp ha with ha | ha
          · subst ha
            exact h.1 ▸ List.mem_cons_self _ _
          · exact List.mem_cons_of_mem _ (ih cs h.2 a ha)

theorem isPrefixOf_cons_self (b : Char) (rest : List Char) :
    List.isPrefixOf [b] (b :: rest) = true := by
  simp [List.isPrefixOf]

theorem firstMatch_eq_none {l : List Char} (h1 : '/' ∉ l) (h2 : '•' ∉ l)
    (h3 : '*' ∉ l) : firstMatch l = none := by
  rw [firstMatch, List.find?_eq_none]
  intro p hp hpre
  have hsub : ∀ a ∈ p, a ∈ l := subset_of_isPrefixOf p l hpre
  simp only [replacerPatterns, List.mem_cons, List.not_mem_nil, or_false] at hp
  rcases hp with h | h | h | h | h | h <;> subst h
  · exact h1 (hsub _ (by simp))
  · exact h2 (hsub _ (by simp))
  · exact h2 (hsub _ (by simp))
  · exact h3 (hsub _ (by simp))
  · exact h1 (hsub _ (by simp))
  · exact h1 (hsub _ (by simp))

theorem replacerGo_eq_self : ∀ (fuel : Nat) (l : List Char), l.length ≤ fuel →
    '/' ∉ l → '•' ∉ l → '*' ∉ l → replacerGo fuel l = l := by
  intro fuel
  induction fuel with
  | zero =>
      intro l hl _ _ _
      have : l = [] := List.length_eq_zero.mp (Nat.le_zero.mp hl)
      subst this
      rfl
  | succ n ih =>
      intro l hl h1 h2 h3
      match l with
      | [] => rfl
      | c :: rest =>
          rw [replacerGo, firstMatch_eq_none h1 h2 h3]
          have : replacerGo n rest = rest :=
            ih rest (by simpa using Nat.le_of_succ_le_succ hl)
              (fun h => h1 (List.mem_cons_of_mem _ h))
              (fun h => h2 (List.mem_cons_of_mem _ h))
              (fun h => h3 (List.mem_cons_of_mem _ h))
          simp [this]

theorem mem_of_mem_replacerGo : ∀ (fuel : Nat) (l : List Char) (c : Char),
    c ∈ replacerGo fuel l → c ∈ l := by
  intro fuel
  induction fuel with
  | zero => intro l c h; simpa [replacerGo] using h
  | succ n ih =>
      intro l c h
      match l with
      | [] => exact h
      | b :: rest =>
          rw [replacerGo] at h
          cases hfm : firstMatch (b :: rest) with
          | some p =>
              rw [hfm] at h
              exact List.mem_of_mem_drop (ih _ _ h)
          | none =>
              rw [hfm] at h
              rcases List.mem_cons.mp h with h | h
              · exact h ▸ List.mem_cons_self _ _
              · exact List.mem_cons_of_mem _ (ih _ _ h)

theorem not_banned_mem_replacerGo : ∀ (fuel : Nat) (l : List Char),
    l.length ≤ fuel → '/' ∉ replacerGo fuel l ∧ '•' ∉ replacerGo fuel l := by
  intro fuel
  induction fuel with
  | zero =>
      intro l hl
      have : l = [] := List.length_eq_zero.mp (Nat.le_zero.mp hl)
      subst this
      simp [replacerGo]
  | succ n ih =>
      intro l hl
      match l with
      | [] => simp [replacerGo]
      | b :: rest =>
          rw [replacerGo]
          cases hfm : firstMatch (b :: rest) with
          | some p =>
              have hmem : p ∈ replacerPatterns := List.mem_of_find?_eq_some hfm
              have hlen : 1 ≤ p.length := replacerPatterns_ne_nil p hmem
              apply ih
              have hd : ((b :: rest).drop p.length).length = (rest.length + 1) - p.length := by
                simp
              have hl2 : rest.length + 1 ≤ n + 1 := by simpa using hl
              rw [hd]
              omega
          | none =>
              have hb : ∀ q ∈ replacerPatterns, ¬(q.isPrefixOf (b :: rest) = true) :=
                List.find?_eq_none.mp hfm
              have hslash : b ≠ '/' := by
                intro hEq
                subst hEq
                exact hb ['/'] (by simp [replacerPatterns])
                  (isPrefixOf_cons_self '/' rest)
              have hdot : b ≠ '•' := by
                intro hEq
                subst hEq
                exact hb ['•'] (by simp [replacerPatterns])
                  (isPrefixOf_cons_self '•' rest)
              have hrest := ih rest (by simpa using Nat.le_of_succ_le_succ hl)
              constructor
              · simp only [List.mem_cons, not_or]
                exact ⟨fun h => hslash h.symm, hrest.1⟩
              · simp only [List.mem_cons, not_or]
                exact ⟨fun h => hdot h.symm, hrest.2⟩

/-! ### Association lists standing in for Go maps -/

/-- Lookup in a Go map (`v, ok := m[k]`). -/
def alistGet {α : Type} : List (String × α) → String → Option α
  | [], _ => none
  | (k, v) :: rest, key => if k = key then some v else alistGet rest key

/-- Assignment to a Go map (`m[k] = v`): overwrite in place, else append. -/
def alistSet {α : Type} : List (String × α) → String → α → List (String × α)
  | [], key, v => [(key, v)]
  | (k, w) :: rest, key, v =>
      if k = key then (k, v) :: rest else (k, w) :: alistSet rest key v

/-- Deletion from a Go map (`delete(m, k)` / `os.Remove`). -/
def alistRemove {α : Type} : List (String × α) → String → List (String × α)
  | [], _ => []
  | (k, v) :: rest, key =>
      if k = key then alistRemove rest key else (k, v) :: alistRemove rest key

def alistKeys {α : Type} (m : List (String × α)) : List String :=
  m.map Prod.fst

@[simp] theorem alistGet_nil {α : Type} (key : String) :
    alistGet ([] : List (String × α)) key = none := rfl

@[simp] theorem alistGet_cons {α : Type} (k : String) (v : α) (rest : List (String × α))
    (key : String) :
    alistGet ((k, v) :: rest) key = if k = key then some v else alistGet rest key := rfl

@[simp] theorem alistKeys_nil {α : Type} : alistKeys ([] : List (String × α)) = [] := rfl

@[simp] theorem alistKeys_cons {α : Type} (k : String) (v : α) (m : List (String × α)) :
    alistKeys ((k, v) :: m) = k :: alistKeys m := rfl

theorem alistGet_alistSet {α : Type} (m : List (String × α)) (k : String) (v : α)
    (key : String) :
    alistGet (alistSet m k v) key = if k = key then some v else alistGet m key := by
  induction m with
  | nil => by_cases h : k = key <;> simp [alistSet, h]
  | cons hd tl ih =>
      obtain ⟨k', v'⟩ := hd
      by_cases hk : k' = k
      · subst hk
        by_cases hkey : k' = key
        · subst hkey
          simp [alistSet]
        · simp [alistSet, hkey]
      · by_cases hkey : k' = key
        · subst hkey
          have hne : ¬(k = k') := fun h => hk h.symm
          simp [alistSet, hk, hne]
        · simp [alistSet, hk, hkey, ih]

@[simp] theorem alistGet_alistSet_self {α : Type} (m : List (String × α)) (k : String)
    (v : α) : alistGet (alistSet m k v) k = some v := by
  simp [alistGet_alistSet]

theorem alistGet_alistSet_ne {α : Type} (m : List (String × α)) (k : String) (v : α)
    (key : String) (h : k ≠ key) :
    alistGet (alistSet m k v) key = alistGet m key := by
  simp [alistGet_alistSet, h]

theorem alistGet_alistRemove {α : Type} (m : List (String × α)) (k key : String) :
    alistGet (alistRemove m k) key = if k = key then none else alistGet m key := by
  induction m with
  | nil => by_cases h : k = key <;> simp [alistRemove, h]
  | cons hd tl ih =>
      obtain ⟨k', v'⟩ := hd
      by_cases hk : k' = k
      · subst hk
        by_cases hkey : k' = key
        · subst hkey
          simp [alistRemove, ih]
        · simp [alistRemove, hkey, ih]
      · by_cases hkey : k' = key
        · subst hkey
          have hne : ¬(k = k') := fun h => hk h.symm
          simp [alistRemove, hk, hne]
        · simp [alistRemove, hk, hkey, ih]

theorem alistKeys_alistSet {α : Type} (m : List (String × α)) (k : String) (v : α) :
    alistKeys (alistSet m k v) =
      if (alistGet m k).isSome then alistKeys m else alistKeys m ++ [k] := by
  induction m with
  | nil => simp [alistSet]
  | cons hd tl ih =>
      obtain ⟨k', v'⟩ := hd
      by_cases hk : k' = k
      · subst hk
        simp [alistSet]
      · have h1 : alistSet ((k', v') :: tl) k v = (k', v') :: alistSet tl k v := by
          simp [alistSet, hk]
        have h2 : alistGet ((k', v') :: tl) k = alistGet tl k := by
          simp [hk]
        rw [h1, h2, alistKeys_cons, ih]
        by_cases hsome : (alistGet tl k).isSome <;> simp [hsome]

theorem mem_alistKeys_iff_isSome {α : Type} (m : List (String × α)) (key : String) :
    key ∈ alistKeys m ↔ (alistGet m key).isSome := by
  induction m with
  | nil => simp
  | cons hd tl ih =>
      obtain ⟨k, v⟩ := hd
      by_cases hk : k = key
      · subst hk
        simp
      · have hne : ¬(key = k) := fun h => hk h.symm
        simp [hk, hne, ih]

/-! ### The aggregation loop of `EnumerateSingleDomainWithCtx`

With wildcard removal disabled, the goroutine at enumerate.go lines
61-114 is a sequential fold over the merged passive result stream.  The
filter/match regex policies are modelled as optional lists of string
predicates (a `nil` slice is `none`), matching the structure of
`filterAndMatchSubdomain` in enumerate.go. -/

inductive ResultType
  | error
  | subdomain
deriving DecidableEq

/-- One record of the merged passive stream (`subscraping.Result`). -/
structure PassiveResult where
  source : String
  type : ResultType
  value : String
deriving DecidableEq

/-- The `resolve.HostEntry` record `{Domain, Host, Source}`. -/
structure HostEntry where
  domain : String
  host : String
  source : String
deriving DecidableEq

/-- The aggregator's three maps: `uniqueMap`, `sourceMap`, `skippedCounts`. -/
structure AggState where
  uniqueMap : List (String × HostEntry)
  sourceMap : List (String × List String)
  skippedCounts : List (String × Nat)
deriving DecidableEq

def initState : AggState := ⟨[], [], []⟩

/-- Go's `strings.HasSuffix`. -/
def goHasSuffix (s t : String) : Bool :=
  t.data.isSuffixOf s.data

/-- The match-regex stage of `filterAndMatchSubdomain`: with a non-nil
matcher list, accept iff some matcher accepts; with a nil list, accept. -/
def matchStage (matchRegexes : Option (List (String → Bool))) (subdomain : String) : Bool :=
  match matchRegexes with
  | some matchers => matchers.any (fun m => m subdomain)
  | none => true

/-- The `filterAndMatchSubdomain` method of enumerate.go: any filter
regex match rejects; otherwise the match stage decides. -/
def filterAndMatchSubdomain (filterRegexes matchRegexes : Option (List (String → Bool)))
    (subdomain : String) : Bool :=
  match filterRegexes with
  | some filters =>
      if filters.any (fun f => f subdomain) then false
      else matchStage matchRegexes subdomain
  | none => matchStage matchRegexes subdomain

/-- Go's `skippedCounts[result.Source]++` (a missing key reads as zero). -/
def bumpSkipped (m : List (String × Nat)) (src : String) : List (String × Nat) :=
  alistSet m src ((alistGet m src).getD 0 + 1)

/-- Go's `sourceMap[subdomain][result.Source] = struct{}{}`: the inner
map is a set of source names. -/
def addSource (m : List (String × List String)) (host src : String) :
    List (String × List String) :=
  let cur := (alistGet m host).getD []
  alistSet m host (if src ∈ cur then cur else cur ++ [src])

/-- Loop body of the result-processing goroutine (enumerate.go 62-107),
with `RemoveWildcard` disabled so accepted entries stay in `uniqueMap`. -/
def aggregateStep (domain : String) (filterRegexes matchRegexes : Option (List (String → Bool)))
    (st : AggState) (r : PassiveResult) : AggState :=
  match r.type with
  | ResultType.error => st
  | ResultType.subdomain =>
      let sub := normalise r.value
      if goHasSuffix sub ("." ++ domain) = false then
        { st with skippedCounts := bumpSkipped st.skippedCounts r.source }
      else if filterAndMatchSubdomain filterRegexes matchRegexes sub then
        let sm0 := if (alistGet st.uniqueMap sub).isSome then st.sourceMap
                   else alistSet st.sourceMap sub []
        let sm1 := addSource sm0 sub r.source
        if (alistGet st.uniqueMap sub).isSome then
          { st with sourceMap := sm1,
                    skippedCounts := bumpSkipped st.skippedCounts r.source }
        else
          { uniqueMap := alistSet st.uniqueMap sub ⟨domain, sub, r.source⟩,
            sourceMap := sm1,
            skippedCounts := st.skippedCounts }
      else st

/-- The whole passive aggregation run as a fold over the result stream. -/
def runAggregator (domain : String) (fr mr : Option (List (String → Bool)))
    (st : AggState) (rs : List PassiveResult) : AggState :=
  rs.foldl (aggregateStep domain fr mr) st

/-- Loop body of the enhanced-result insertion loop
(enumerate.go 159-181): every accepted enhanced result is recorded with
the single source name "enhanced". -/
def enhancedStep (domain : String) (fr mr : Option (List (String → Bool)))
    (st : AggState) (result : String) : AggState :=
  if filterAndMatchSubdomain fr mr result then
    if (alistGet st.uniqueMap result).isSome then st
    else
      let sm0 := if (alistGet st.sourceMap result).isSome then st.sourceMap
                 else alistSet st.sourceMap result []
      { uniqueMap := alistSet st.uniqueMap result ⟨domain, result, "enhanced"⟩,
        sourceMap := addSource sm0 result "enhanced",
        skippedCounts := st.skippedCounts }
  else st

def enhancedPhase (domain : String) (fr mr : Option (List (String → Bool)))
    (st : AggState) (results : List String) : AggState :=
  results.foldl (enhancedStep domain fr mr) st

/-- Scenario 1 of the specification: source crtsh emits a.example.com,
b.example.com and the wildcard entry. -/
def crtshScenario : List PassiveResult :=
  [⟨"crtsh", ResultType.subdomain, "a.example.com"⟩,
   ⟨"crtsh", ResultType.subdomain, "b.example.com"⟩,
   ⟨"crtsh", ResultType.subdomain, "*.example.com"⟩]

/-! ### Aggregator invariants (claim C1) -/

/-- Source `src` emitted a Subdomain result whose normalised value is `h`. -/
def emitted (rs : List PassiveResult) (src h : String) : Prop :=
  ∃ r ∈ rs, r.type = ResultType.subdomain ∧ r.source = src ∧ normalise r.value = h

/-- The aggregator invariant relative to the results processed so far. -/
def AggInv (rs : List PassiveResult) (st : AggState) : Prop :=
  (alistKeys st.uniqueMap).Nodup ∧
  (∀ h, (alistGet st.sourceMap h).isSome ↔ (alistGet st.uniqueMap h).isSome) ∧
  (∀ h l, alistGet st.sourceMap h = some l → l ≠ []) ∧
  (∀ h l src, alistGet st.sourceMap h = some l → src ∈ l → emitted rs src h)

theorem emitted_mono {rs rs' : List PassiveResult} (hsub : rs ⊆ rs') {src h : String} :
    emitted rs src h → emitted rs' src h := by
  rintro ⟨r, hr, hrest⟩
  exact ⟨r, hsub hr, hrest⟩

theorem alistGet_addSource (m : List (String × List String)) (host src key : String) :
    alistGet (addSource m host src) key =
      if host = key then
        some (if src ∈ (alistGet m host).getD [] then (alistGet m host).getD []
              else (alistGet m host).getD [] ++ [src])
      else alistGet m key := by
  rw [addSource, alistGet_alistSet]

theorem addSource_val_ne_nil (m : List (String × List String)) (host src key : String)
    (l : List String) (h : alistGet (addSource m host src) key = some l) :
    (alistGet m key = some l ∧ host ≠ key) ∨ l ≠ [] := by
  rw [alistGet_addSource] at h
  by_cases hk : host = key
  · subst hk
    rw [if_pos rfl] at h
    right
    by_cases hmem : src ∈ (alistGet m host).getD []
    · rw [if_pos hmem] at h
      injection h with h
      subst h
      exact List.ne_nil_of_mem hmem
    · rw [if_neg hmem] at h
      injection h with h
      subst h
      simp
  · rw [if_neg hk] at h
    exact Or.inl ⟨h, hk⟩

theorem mem_addSource_val (m : List (String × List String)) (host src key : String)
    (l : List String) (s : String) (h : alistGet (addSource m host src) key = some l)
    (hs : s ∈ l) :
    (∃ l₀, alistGet m key = some l₀ ∧ s ∈ l₀) ∨ (host = key ∧ s = src) := by
  rw [alistGet_addSource] at h
  by_cases hk : host = key
  · subst hk
    rw [if_pos rfl] at h
    injection h with h
    subst h
    by_cases hmem : src ∈ (alistGet m host).getD []
    · rw [if_pos hmem] at hs
      cases hget : alistGet m host with
      | none => rw [hget] at hs; simp at hs
      | some l₀ => rw [hget] at hs; exact Or.inl ⟨l₀, rfl, hs⟩
    · rw [if_neg hmem] at hs
      rcases List.mem_append.mp hs with hs | hs
      · cases hget : alistGet m host with
        | none => rw [hget] at hs; simp at hs
        | some l₀ => rw [hget] at hs; exact Or.inl ⟨l₀, rfl, hs⟩
      · exact Or.inr ⟨rfl, List.mem_singleton.mp hs⟩
  · rw [if_neg hk] at h
    exact Or.inl ⟨l, h, hs⟩

theorem aggregateStep_error (domain : String) (fr mr : Option (List (String → Bool)))
    (st : AggState) (r : PassiveResult) (htype : r.type = ResultType.error) :
    aggregateStep domain fr mr st r = st := by
  rw [aggregateStep, htype]

theorem aggregateStep_skip (domain : String) (fr mr : Option (List (String → Bool)))
    (st : AggState) (r : PassiveResult) (htype : r.type = ResultType.subdomain)
    (hsuf : goHasSuffix (normalise r.value) ("." ++ domain) = false) :
    aggregateStep domain fr mr st r =
      { st with skippedCounts := bumpSkipped st.skippedCounts r.source } := by
  rw [aggregateStep, htype]
  simp [hsuf]

theorem aggregateStep_filtered (domain : String) (fr mr : Option (List (String → Bool)))
    (st : AggState) (r : PassiveResult) (htype : r.type = ResultType.subdomain)
    (hsuf : goHasSuffix (normalise r.value) ("." ++ domain) = true)
    (hfil : filterAndMatchSubdomain fr mr (normalise r.value) = false) :
    aggregateStep domain fr mr st r = st := by
  rw [aggregateStep, htype]
  simp [hsuf, hfil]

theorem aggregateStep_dup (domain : String) (fr mr : Option (List (String → Bool)))
    (st : AggState) (r : PassiveResult) (htype : r.type = ResultType.subdomain)
    (hsuf : goHasSuffix (normalise r.value) ("." ++ domain) = true)
    (hfil : filterAndMatchSubdomain fr mr (normalise r.value) = true)
    (hdup : (alistGet st.uniqueMap (normalise r.value)).isSome = true) :
    aggregateStep domain fr mr st r =
      { st with sourceMap := addSource st.sourceMap (normalise r.value) r.source,
                skippedCounts := bumpSkipped st.skippedCounts r.source } := by
  rw [aggregateStep, htype]
  simp [hsuf, hfil, hdup]

theorem aggregateStep_new (domain : String) (fr mr : Option (List (String → Bool)))
    (st : AggState) (r : PassiveResult) (htype : r.type = ResultType.subdomain)
    (hsuf : goHasSuffix (normalise r.value) ("." ++ domain) = true)
    (hfil : filterAndMatchSubdomain fr mr (normalise r.value) = true)
    (hnone : alistGet st.uniqueMap (normalise r.value) = none) :
    aggregateStep domain fr mr st r =
      { uniqueMap := alistSet st.uniqueMap (normalise r.value)
          ⟨domain, normalise r.value, r.source⟩,
        sourceMap := addSource (alistSet st.sourceMap (normalise r.value) [])
          (normalise r.value) r.source,
        skippedCounts := st.skippedCounts } := by
  rw [aggregateStep, htype]
  simp [hsuf, hfil, hnone]

theorem aggInv_step (domain : String) (fr mr : Option (List (String → Bool)))
    (rs : List PassiveResult) (st : AggState) (r : PassiveResult)
    (hinv : AggInv rs st) : AggInv (rs ++ [r]) (aggregateStep domain fr mr st r) := by
  obtain ⟨h1, h2, h3, h4⟩ := hinv
  have hmono : ∀ src h, emitted rs src h → emitted (rs ++ [r]) src h :=
    fun src h => emitted_mono (by simp)
  have hkeep : AggInv (rs ++ [r]) st :=
    ⟨h1, h2, h3, fun h l src hget hl => hmono _ _ (h4 h l src hget hl)⟩
  cases htype : r.type with
  | error => rw [aggregateStep_error domain fr mr st r htype]; exact hkeep
  | subdomain =>
      by_cases hsuf : goHasSuffix (normalise r.value) ("." ++ domain) = false
      · rw [aggregateStep_skip domain fr mr st r htype hsuf]
        exact ⟨h1, h2, h3, fun h l src hget hl => hmono _ _ (h4 h l src hget hl)⟩
      · have hsuf' : goHasSuffix (normalise r.value) ("." ++ domain) = true :=
          Bool.not_eq_false _ ▸ (Bool.of_not_eq_false hsuf)
        by_cases hfil : filterAndMatchSubdomain fr mr (normalise r.value) = true
        · by_cases hdup : (alistGet st.uniqueMap (normalise r.value)).isSome = true
          · rw [aggregateStep_dup domain fr mr st r htype hsuf' hfil hdup]
            refine ⟨h1, ?_, ?_, ?_⟩
            · intro h
              rw [alistGet_addSource]
              by_cases hk : normalise r.value = h
              · subst hk
                simp [hdup]
              · rw [if_neg hk]
                exact h2 h
            · intro h l hget
              rcases addSource_val_ne_nil _ _ _ _ _ hget with ⟨hold, _⟩ | hne
              · exact h3 h l hold
              · exact hne
            · intro h l src hget hl
              rcases mem_addSource_val _ _ _ _ _ _ hget hl with ⟨l₀, hold, hmem⟩ | ⟨hk, hsrc⟩
              · exact hmono _ _ (h4 h l₀ src hold hmem)
              · exact ⟨r, by simp, htype, hsrc.symm ▸ rfl, hk⟩
          · have hnone : alistGet st.uniqueMap (normalise r.value) = none :=
              Option.not_isSome_iff_eq_none.mp (by simpa using hdup)
            rw [aggregateStep_new domain fr mr st r htype hsuf' hfil hnone]
            refine ⟨?_, ?_, ?_, ?_⟩
            · show (alistKeys (alistSet st.uniqueMap (normalise r.value) _)).Nodup
              rw [alistKeys_alistSet, if_neg (by rw [hnone]; simp)]
              refine List.Nodup.append h1 (by simp) ?_
              intro a ha hb
              rw [List.mem_singleton] at hb
              subst hb
              rw [mem_alistKeys_iff_isSome] at ha
              exact hdup ha
            · intro h
              show (alistGet (addSource _ _ _) h).isSome = true ↔
                (alistGet (alistSet st.uniqueMap (normalise r.value) _) h).isSome = true
              rw [alistGet_addSource]
              by_cases hk : normalise r.value = h
              · subst hk
                simp
              · rw [if_neg hk, alistGet_alistSet_ne _ _ _ _ hk,
                    alistGet_alistSet_ne _ _ _ _ hk]
                exact h2 h
            · intro h l hget
              rcases addSource_val_ne_nil _ _ _ _ _ hget with ⟨hold, hk⟩ | hne
              · rw [alistGet_alistSet_ne _ _ _ _ hk] at hold
                exact h3 h l hold
              · exact hne
            · intro h l src hget hl
              rcases mem_addSource_val _ _ _ _ _ _ hget hl with ⟨l₀, hold, hmem⟩ | ⟨hk, hsrc⟩
              · by_cases hk : normalise r.value = h
                · subst hk
                  rw [alistGet_alistSet_self] at hold
                  injection hold with hold
                  subst hold
                  simp at hmem
                · rw [alistGet_alistSet_ne _ _ _ _ hk] at hold
                  exact hmono _ _ (h4 h l₀ src hold hmem)
              · exact ⟨r, by simp, htype, hsrc.symm ▸ rfl, hk⟩
        · have hfil' : filterAndMatchSubdomain fr mr (normalise r.value) = false := by
            simpa using hfil
          rw [aggregateStep_filtered domain fr mr st r htype hsuf' hfil']
          exact hkeep

theorem aggInv_run (domain : String) (fr mr : Option (List (String → Bool))) :
    ∀ (rs seen : List PassiveResult) (st : AggState),
    AggInv seen st → AggInv (seen ++ rs) (runAggregator domain fr mr st rs) := by
  intro rs
  induction rs with
  | nil => intro seen st h; simpa [runAggregator] using h
  | cons r rest ih =>
      intro seen st h
      have hstep := aggInv_step domain fr mr seen st r h
      have := ih (seen ++ [r]) (aggregateStep domain fr mr st r) hstep
      simpa [runAggregator, List.append_assoc] using this

theorem aggInv_init : AggInv [] initState := by
  refine ⟨by simp [initState], by simp [initState], ?_, ?_⟩
  · intro h l hget
    simp [initState] at hget
  · intro h l src hget
    simp [initState] at hget

/-- C1: with wildcard-removal disabled, at every observable moment of a
run on apex `domain` (i.e. after any prefix `p` of the result stream
`rs`): every host occurs at most once in `uniqueMap`; the key set of
`sourceMap` equals the key set of `uniqueMap`; and every attribution set
is non-empty and contains only names of sources that emitted a Subdomain
result normalising to that host. -/
theorem c1_aggregator_invariants (domain : String)
    (fr mr : Option (List (String → Bool))) (rs p : List PassiveResult)
    (hp : p <+: rs) :
    (alistKeys (runAggregator domain fr mr initState p).uniqueMap).Nodup ∧
    (∀ h, (alistGet (runAggregator domain fr mr initState p).sourceMap h).isSome ↔
          (alistGet (runAggregator domain fr mr initState p).uniqueMap h).isSome) ∧
    (∀ h l, alistGet (runAggregator domain fr mr initState p).sourceMap h = some l →
      l ≠ []) ∧
    (∀ h l src, alistGet (runAggregator domain fr mr initState p).sourceMap h = some l →
      src ∈ l →
      ∃ r ∈ rs, r.type = ResultType.subdomain ∧ r.source = src ∧
        normalise r.value = h) := by
  have hrun := aggInv_run domain fr mr p [] initState aggInv_init
  rw [List.nil_append] at hrun
  obtain ⟨h1, h2, h3, h4⟩ := hrun
  exact ⟨h1, h2, h3, fun h l src hget hl =>
    emitted_mono hp.sublist.subset (h4 h l src hget hl)⟩

/-- Witness for C1 at the crtsh scenario. -/
theorem c1_aggregator_invariants_witness :
    (alistKeys (runAggregator "example.com" none none initState crtshScenario).uniqueMap).Nodup ∧
    (∀ h, (alistGet (runAggregator "example.com" none none initState crtshScenario).sourceMap h).isSome ↔
          (alistGet (runAggregator "example.com" none none initState crtshScenario).uniqueMap h).isSome) ∧
    (∀ h l, alistGet (runAggregator "example.com" none none initState crtshScenario).sourceMap h = some l →
      l ≠ []) ∧
    (∀ h l src, alistGet (runAggregator "example.com" none none initState crtshScenario).sourceMap h = some l →
      src ∈ l →
      ∃ r ∈ crtshScenario, r.type = ResultType.subdomain ∧ r.source = src ∧
        normalise r.value = h) :=
  c1_aggregator_invariants "example.com" none none crtshScenario crtshScenario
    (List.prefix_refl _)

/-! ### Source statistics (claim C3)

A source adapter's `Statistics().Results` counter is incremented once
per emitted Subdomain result (e.g. wayback.go line 90, urlscan.go), so
the raw per-source statistic equals the count of Subdomain results with
that source name in the stream.  The statistics post-pass
(enumerate.go 278-283) subtracts `skippedCounts[s]`. -/

/-- Modelled from the spec: the passive agent's `GetStatistics` method,
which assembles per-source stats from each adapter's `Statistics()`, is
not under the provided sources; per the spec and the adapters that are
(wayback.go, urlscan.go increment `s.results` once per emitted Subdomain
result), the raw `Results` statistic of source `src` is the number of
Subdomain results it emitted. -/
def rawCount (src : String) : List PassiveResult → Nat
  | [] => 0
  | r :: rest =>
      (if r.source = src ∧ r.type = ResultType.subdomain then 1 else 0) + rawCount src rest

/-- Number of Subdomain results of source `src` that pass the
well-formedness gate (normalised value under the apex) and the dedup
gate (not already in `uniqueMap` when processed), along the run. -/
def gatesCount (domain : String) (fr mr : Option (List (String → Bool)))
    (src : String) : AggState → List PassiveResult → Nat
  | _, [] => 0
  | st, r :: rest =>
      (if r.source = src ∧ r.type = ResultType.subdomain ∧
          goHasSuffix (normalise r.value) ("." ++ domain) = true ∧
          alistGet st.uniqueMap (normalise r.value) = none
       then 1 else 0) +
      gatesCount domain fr mr src (aggregateStep domain fr mr st r) rest

/-- The per-source skipped counter read off the aggregator state. -/
def skippedOf (st : AggState) (src : String) : Nat :=
  (alistGet st.skippedCounts src).getD 0

/-- Every host stored in `uniqueMap` passed the filter/match policy. -/
def FilterInv (fr mr : Option (List (String → Bool))) (st : AggState) : Prop :=
  ∀ h, (alistGet st.uniqueMap h).isSome = true →
    filterAndMatchSubdomain fr mr h = true

theorem skippedOf_bumpSkipped (m : List (String × Nat)) (src key : String) :
    (alistGet (bumpSkipped m src) key).getD 0 =
      (alistGet m key).getD 0 + (if src = key then 1 else 0) := by
  rw [bumpSkipped, alistGet_alistSet]
  by_cases h : src = key
  · subst h
    simp
  · simp [h]

theorem filterInv_step (domain : String) (fr mr : Option (List (String → Bool)))
    (st : AggState) (r : PassiveResult) (hinv : FilterInv fr mr st) :
    FilterInv fr mr (aggregateStep domain fr mr st r) := by
  cases htype : r.type with
  | error => rw [aggregateStep_error domain fr mr st r htype]; exact hinv
  | subdomain =>
      by_cases hsuf : goHasSuffix (normalise r.value) ("." ++ domain) = false
      · rw [aggregateStep_skip domain fr mr st r htype hsuf]
        exact hinv
      · have hsuf' : goHasSuffix (normalise r.value) ("." ++ domain) = true :=
          Bool.not_eq_false _ ▸ (Bool.of_not_eq_false hsuf)
        by_cases hfil : filterAndMatchSubdomain fr mr (normalise r.value) = true
        · by_cases hdup : (alistGet st.uniqueMap (normalise r.value)).isSome = true
          · rw [aggregateStep_dup domain fr mr st r htype hsuf' hfil hdup]
            exact hinv
          · have hnone : alistGet st.uniqueMap (normalise r.value) = none :=
              Option.not_isSome_iff_eq_none.mp (by simpa using hdup)
            rw [aggregateStep_new domain fr mr st r htype hsuf' hfil hnone]
            intro h hh
            show filterAndMatchSubdomain fr mr h = true
            by_cases hk : normalise r.value = h
            · subst hk
              exact hfil
            · rw [show (alistGet (alistSet st.uniqueMap (normalise r.value)
                    ⟨domain, normalise r.value, r.source⟩) h) =
                    alistGet st.uniqueMap h from alistGet_alistSet_ne _ _ _ _ hk] at hh
              exact hinv h hh
        · have hfil' : filterAndMatchSubdomain fr mr (normalise r.value) = false := by
            simpa using hfil
          rw [aggregateStep_filtered domain fr mr st r htype hsuf' hfil']
          exact hinv

theorem stats_run (domain : String) (fr mr : Option (List (String → Bool)))
    (src : String) : ∀ (rs : List PassiveResult) (st : AggState),
    FilterInv fr mr st →
    rawCount src rs + skippedOf st src =
      skippedOf (runAggregator domain fr mr st rs) src +
        gatesCount domain fr mr src st rs := by
  intro rs
  induction rs with
  | nil => intro st _; simp [rawCount, gatesCount, runAggregator]
  | cons r rest ih =>
      intro st hinv
      have hrun : runAggregator domain fr mr st (r :: rest) =
          runAggregator domain fr mr (aggregateStep domain fr mr st r) rest := rfl
      have ihr := ih (aggregateStep domain fr mr st r)
        (filterInv_step domain fr mr st r hinv)
      rw [rawCount, gatesCount, hrun]
      have hstep :
          (if r.source = src ∧ r.type = ResultType.subdomain then 1 else 0) +
            skippedOf st src =
          skippedOf (aggregateStep domain fr mr st r) src +
            (if r.source = src ∧ r.type = ResultType.subdomain ∧
                goHasSuffix (normalise r.value) ("." ++ domain) = true ∧
                alistGet st.uniqueMap (normalise r.value) = none
             then 1 else 0) := by
        cases htype : r.type with
        | error =>
            rw [aggregateStep_error domain fr mr st r htype]
            simp [htype]
        | subdomain =>
            by_cases hsuf : goHasSuffix (normalise r.value) ("." ++ domain) = false
            · rw [aggregateStep_skip domain fr mr st r htype hsuf]
              have : skippedOf { st with skippedCounts := bumpSkipped st.skippedCounts r.source } src =
                  skippedOf st src + (if r.source = src then 1 else 0) :=
                skippedOf_bumpSkipped st.skippedCounts r.source src
              rw [this]
              by_cases hs : r.source = src <;> simp [hs, htype, hsuf] <;> omega
            · have hsuf' : goHasSuffix (normalise r.value) ("." ++ domain) = true :=
                Bool.not_eq_false _ ▸ (Bool.of_not_eq_false hsuf)
              by_cases hfil : filterAndMatchSubdomain fr mr (normalise r.value) = true
              · by_cases hdup : (alistGet st.uniqueMap (normalise r.value)).isSome = true
                · rw [aggregateStep_dup domain fr mr st r htype hsuf' hfil hdup]
                  have : skippedOf { st with
                        sourceMap := addSource st.sourceMap (normalise r.value) r.source,
                        skippedCounts := bumpSkipped st.skippedCounts r.source } src =
                      skippedOf st src + (if r.source = src then 1 else 0) :=
                    skippedOf_bumpSkipped st.skippedCounts r.source src
                  rw [this]
                  have hne : ¬ alistGet st.uniqueMap (normalise r.value) = none := by
                    intro h
                    rw [h] at hdup
                    simp at hdup
                  by_cases hs : r.source = src <;> simp [hs, htype, hsuf', hne] <;> omega
                · have hnone : alistGet st.uniqueMap (normalise r.value) = none :=
                    Option.not_isSome_iff_eq_none.mp (by simpa using hdup)
                  rw [aggregateStep_new domain fr mr st r htype hsuf' hfil hnone]
                  by_cases hs : r.source = src <;>
                    simp [hs, htype, hsuf', hnone, skippedOf] <;> omega
              · have hfil' : filterAndMatchSubdomain fr mr (normalise r.value) = false := by
                  simpa using hfil
                rw [aggregateStep_filtered domain fr mr st r htype hsuf' hfil']
                have hnone : alistGet st.uniqueMap (normalise r.value) = none := by
                  by_cases hh : (alistGet st.uniqueMap (normalise r.value)).isSome = true
                  · have := hinv (normalise r.value) hh
                    rw [this] at hfil'
                    cases hfil'
                  · exact Option.not_isSome_iff_eq_none.mp (by simpa using hh)
                by_cases hs : r.source = src <;>
                  simp [hs, htype, hsuf', hnone] <;> omega
      omega

theorem filterInv_init (fr mr : Option (List (String → Bool))) :
    FilterInv fr mr initState := by
  intro h hh
  simp [initState] at hh

/-- C3: for every source and run configuration, the reported statistic
(the raw emitted-Subdomain count minus the skipped counter subtracted in
the post-pass) equals the number of Subdomain results of that source
that passed both the well-formedness gate and the dedup gate; the
subtraction never underflows. -/
theorem c3_stats_faithfulness (domain : String)
    (fr mr : Option (List (String → Bool))) (src : String)
    (rs : List PassiveResult) :
    rawCount src rs - skippedOf (runAggregator domain fr mr initState rs) src =
      gatesCount domain fr mr src initState rs ∧
    skippedOf (runAggregator domain fr mr initState rs) src ≤ rawCount src rs := by
  have h := stats_run domain fr mr src rs initState (filterInv_init fr mr)
  have h0 : skippedOf initState src = 0 := by simp [initState, skippedOf]
  rw [h0] at h
  omega

/-! ### Claims C2, C4, C5 on normalisation and apex handling -/

/-- C2 counterexample: in the crtsh scenario the wildcard entry
normalises to the apex `example.com`, but the gate
`strings.HasSuffix(subdomain, "."+domain)` rejects it, so the accepted
set is only {a.example.com, b.example.com} — the apex itself is not
accepted, contrary to the claim. -/
theorem c2_apex_counterexample :
    normalise "*.example.com" = "example.com" ∧
    alistGet (runAggregator "example.com" none none initState crtshScenario).uniqueMap
      "example.com" = none ∧
    alistKeys (runAggregator "example.com" none none initState crtshScenario).uniqueMap =
      ["a.example.com", "b.example.com"] := by decide

/-- C2 amended: a Subdomain result whose normalised value equals the apex
itself fails the suffix gate and is counted as skipped; in the crtsh
scenario the accepted set is exactly {a.example.com, b.example.com},
each attributed to crtsh, with one skipped result for crtsh. -/
theorem c2_apex_amended :
    (runAggregator "example.com" none none initState crtshScenario).uniqueMap =
      [("a.example.com", ⟨"example.com", "a.example.com", "crtsh"⟩),
       ("b.example.com", ⟨"example.com", "b.example.com", "crtsh"⟩)] ∧
    (runAggregator "example.com" none none initState crtshScenario).sourceMap =
      [("a.example.com", ["crtsh"]), ("b.example.com", ["crtsh"])] ∧
    (runAggregator "example.com" none none initState crtshScenario).skippedCounts =
      [("crtsh", 1)] := by decide

/-- C4 counterexample: the replacer removes every `/` occurrence (not
just a leading one) and performs no lower-casing and no whitespace
trimming, so two of the three candidates of the claim do not normalise
to `a.example.com`. -/
theorem c4_normalise_counterexample :
    normalise "https://a.example.com/path" = "a.example.compath" ∧
    normalise "https://a.example.com/path" ≠ "a.example.com" ∧
    normalise "  a.example.com  " = "  a.example.com  " ∧
    normalise "  a.example.com  " ≠ "a.example.com" := by decide

/-- C4 amended: normalisation removes all occurrences of the patterns
`/`, `•.`, `•`, `*.`, `http://`, `https://` (earliest pattern first at
each position) and nothing else: no lower-casing and no whitespace
trimming, so `*.example.com` gives `example.com`,
`https://a.example.com/path` gives `a.example.compath`, surrounding
whitespace survives and ASCII case is preserved. -/
theorem c4_normalise_amended :
    normalise "*.example.com" = "example.com" ∧
    normalise "http://a.example.com" = "a.example.com" ∧
    normalise "https://a.example.com/path" = "a.example.compath" ∧
    normalise "  a.example.com  " = "  a.example.com  " ∧
    normalise "A.Example.COM" = "A.Example.COM" ∧
    normalise "•.x.example.com" = "x.example.com" := by decide

/-- C5 counterexample: normalisation is not idempotent — removing the
`/` of `*/.` glues a fresh `*.` pattern which a second pass removes:
`normalise "*/." = "*."` but `normalise "*." = ""`. -/
theorem c5_idempotence_counterexample :
    normalise (normalise "*/.") ≠ normalise "*/." ∧
    normalise "*/." = "*." ∧ normalise "*." = "" := by decide

/-- C5 amended: normalisation is idempotent on every input that contains
no `*` character (removals can only manufacture a new occurrence of the
`*.` pattern, never of the other patterns, whose characters `/` and `•`
are always removed). -/
theorem c5_idempotence_amended (s : String) (h : '*' ∉ s.data) :
    normalise (normalise s) = normalise s := by
  have hout := not_banned_mem_replacerGo s.data.length s.data (le_refl _)
  have hstar : '*' ∉ replacerReplace s.data := fun hm =>
    h (mem_of_mem_replacerGo _ _ _ hm)
  show (⟨replacerReplace (replacerReplace s.data)⟩ : String) = ⟨replacerReplace s.data⟩
  congr 1
  exact replacerGo_eq_self _ _ (le_refl _) hout.1 hout.2 hstar

/-- Witness for the amended C5 statement at a concrete star-free input. -/
theorem c5_idempotence_amended_witness :
    '*' ∉ "https://a.example.com/path".data ∧
    normalise (normalise "https://a.example.com/path") =
      normalise "https://a.example.com/path" :=
  ⟨by decide, c5_idempotence_amended "https://a.example.com/path" (by decide)⟩

/-! ### The enhanced enumerator (enhanced.go): claims C7, C8, C10 -/

/-- The `testSubdomain` method (enhanced.go 237-255).  It opens a timeout
context and, when the resolver pool reference is non-nil, returns true
unless that context is already done; the branch is marked
"Placeholder - implement actual DNS resolution" and performs no DNS
query, so the verdict takes no DNS data at all. -/
def testSubdomain (resolverPresent ctxDone : Bool) : Bool :=
  if resolverPresent then (if ctxDone then false else true) else false

/-- The forwarding decision of `runPermutations` (enhanced.go 150-172):
a generated candidate is sent on the results channel iff `testSubdomain`
returns true for it. -/
def runPermutations (perms : List String) (resolverPresent ctxDone : Bool) : List String :=
  perms.filter (fun _ => testSubdomain resolverPresent ctxDone)

/-- C7: contrary to the claim, `testSubdomain` consults no DNS oracle —
with a resolver pool present and a live context every generated
permutation candidate (resolving or not) is forwarded to the result
stream. -/
theorem c7_permutations_not_validated (perms : List String) :
    runPermutations perms true false = perms ∧ testSubdomain true false = true := by
  constructor
  · simp [runPermutations, testSubdomain]
  · rfl

/-- Evaluation of C7 at the concrete failing input: the non-resolving
candidate api-dev.example.com is forwarded anyway. -/
theorem c7_permutations_not_validated_eval :
    runPermutations ["api-dev.example.com"] true false = ["api-dev.example.com"] := by
  decide

/-- Insertion into the `allResults` set of `EnhancedEnumerate`
(a Go map used as a set, modelled insertion-ordered). -/
def insertResult (acc : List String) (r : String) : List String :=
  if r ∈ acc then acc else acc ++ [r]

/-- `EnhancedEnumerate` (enhanced.go 55-110): the passive results are
added to the set first, then every stage result collected from the
results channel; the returned slice enumerates the set. -/
def enhancedEnumerate (passiveResults stageResults : List String) : List String :=
  (passiveResults ++ stageResults).foldl insertResult []

theorem mem_insertResult_of_mem (acc : List String) (r x : String) (h : x ∈ acc) :
    x ∈ insertResult acc r := by
  rw [insertResult]
  by_cases hr : r ∈ acc
  · rw [if_pos hr]; exact h
  · rw [if_neg hr]; exact List.mem_append_left _ h

theorem mem_foldl_insertResult_of_mem_acc :
    ∀ (l acc : List String) (x : String), x ∈ acc → x ∈ l.foldl insertResult acc := by
  intro l
  induction l with
  | nil => intro acc x h; exact h
  | cons a rest ih =>
      intro acc x h
      exact ih (insertResult acc a) x (mem_insertResult_of_mem acc a x h)

theorem mem_foldl_insertResult :
    ∀ (l acc : List String) (x : String), x ∈ l → x ∈ l.foldl insertResult acc := by
  intro l
  induction l with
  | nil => intro acc x h; cases h
  | cons a rest ih =>
      intro acc x h
      rcases List.mem_cons.mp h with h | h
      · subst h
        refine mem_foldl_insertResult_of_mem_acc rest (insertResult acc x) x ?_
        simp only [insertResult]
        by_cases hr : x ∈ acc
        · rw [if_pos hr]; exact hr
        · rw [if_neg hr]; exact List.mem_append_right _ (by simp)
      · exact ih (insertResult acc a) x h

theorem nodup_foldl_insertResult :
    ∀ (l acc : List String), acc.Nodup → (l.foldl insertResult acc).Nodup := by
  intro l
  induction l with
  | nil => intro acc h; exact h
  | cons a rest ih =>
      intro acc h
      apply ih
      rw [insertResult]
      by_cases hr : a ∈ acc
      · rw [if_pos hr]; exact h
      · rw [if_neg hr]
        refine List.Nodup.append h (by simp) ?_
        intro x hx hb
        rw [List.mem_singleton] at hb
        subst hb
        exact hr hx

/-- C10: `EnhancedEnumerate` returns a superset of its passive-results
input and the returned slice contains no duplicate entries. -/
theorem c10_enhanced_superset_nodup (passiveResults stageResults : List String) :
    (∀ x ∈ passiveResults, x ∈ enhancedEnumerate passiveResults stageResults) ∧
    (enhancedEnumerate passiveResults stageResults).Nodup := by
  constructor
  · intro x hx
    exact mem_foldl_insertResult _ [] x (List.mem_append_left _ hx)
  · exact nodup_foldl_insertResult _ [] (by simp)

/-- Witness for C10 on a concrete input with an overlapping duplicate. -/
theorem c10_enhanced_superset_nodup_witness :
    "api.example.com" ∈ ["api.example.com", "www.example.com"] ∧
    "api.example.com" ∈
      enhancedEnumerate ["api.example.com", "www.example.com"] ["api.example.com"] ∧
    (enhancedEnumerate ["api.example.com", "www.example.com"] ["api.example.com"]).Nodup :=
  ⟨by decide,
   (c10_enhanced_superset_nodup ["api.example.com", "www.example.com"]
      ["api.example.com"]).1 "api.example.com" (by decide),
   (c10_enhanced_superset_nodup ["api.example.com", "www.example.com"]
      ["api.example.com"]).2⟩

/-! ### Claim C8: source names of the enhanced stages -/

theorem enhancedStep_filtered (domain : String) (fr mr : Option (List (String → Bool)))
    (st : AggState) (result : String)
    (hfil : filterAndMatchSubdomain fr mr result = false) :
    enhancedStep domain fr mr st result = st := by
  rw [enhancedStep]
  simp [hfil]

theorem enhancedStep_dup (domain : String) (fr mr : Option (List (String → Bool)))
    (st : AggState) (result : String)
    (hfil : filterAndMatchSubdomain fr mr result = true)
    (hdup : (alistGet st.uniqueMap result).isSome = true) :
    enhancedStep domain fr mr st result = st := by
  rw [enhancedStep]
  simp [hfil, hdup]

theorem enhancedStep_new (domain : String) (fr mr : Option (List (String → Bool)))
    (st : AggState) (result : String)
    (hfil : filterAndMatchSubdomain fr mr result = true)
    (hnone : alistGet st.uniqueMap result = none) :
    enhancedStep domain fr mr st result =
      { uniqueMap := alistSet st.uniqueMap result ⟨domain, result, "enhanced"⟩,
        sourceMap := addSource
          (if (alistGet st.sourceMap result).isSome then st.sourceMap
           else alistSet st.sourceMap result []) result "enhanced",
        skippedCounts := st.skippedCounts } := by
  rw [enhancedStep]
  simp [hfil, hnone]

theorem enhancedStep_uniqueMap_mono (domain : String)
    (fr mr : Option (List (String → Bool))) (st : AggState) (result h : String)
    (e : HostEntry) (hget : alistGet st.uniqueMap h = some e) :
    alistGet (enhancedStep domain fr mr st result).uniqueMap h = some e := by
  by_cases hfil : filterAndMatchSubdomain fr mr result = true
  · by_cases hdup : (alistGet st.uniqueMap result).isSome = true
    · rw [enhancedStep_dup domain fr mr st result hfil hdup]
      exact hget
    · have hnone : alistGet st.uniqueMap result = none :=
        Option.not_isSome_iff_eq_none.mp (by simpa using hdup)
      rw [enhancedStep_new domain fr mr st result hfil hnone]
      have hk : result ≠ h := by
        intro hEq
        subst hEq
        rw [hnone] at hget
        cases hget
      show alistGet (alistSet st.uniqueMap result _) h = some e
      rw [alistGet_alistSet_ne _ _ _ _ hk]
      exact hget
  · rw [enhancedStep_filtered domain fr mr st result (by simpa using hfil)]
    exact hget

theorem enhancedStep_sourceMap_mono (domain : String)
    (fr mr : Option (List (String → Bool))) (st : AggState) (result h s : String)
    (hs : s ∈ (alistGet st.sourceMap h).getD []) :
    s ∈ (alistGet (enhancedStep domain fr mr st result).sourceMap h).getD [] := by
  by_cases hfil : filterAndMatchSubdomain fr mr result = true
  · by_cases hdup : (alistGet st.uniqueMap result).isSome = true
    · rw [enhancedStep_dup domain fr mr st result hfil hdup]
      exact hs
    · have hnone : alistGet st.uniqueMap result = none :=
        Option.not_isSome_iff_eq_none.mp (by simpa using hdup)
      rw [enhancedStep_new domain fr mr st result hfil hnone]
      show s ∈ (alistGet (addSource _ result "enhanced") h).getD []
      rw [alistGet_addSource]
      by_cases hk : result = h
      · subst hk
        rw [if_pos rfl, Option.getD_some]
        by_cases hsm : (alistGet st.sourceMap result).isSome = true
        · rw [if_pos hsm]
          by_cases hmem : "enhanced" ∈ (alistGet st.sourceMap result).getD []
          · rw [if_pos hmem]; exact hs
          · rw [if_neg hmem]; exact List.mem_append_left _ hs
        · have : alistGet st.sourceMap result = none :=
            Option.not_isSome_iff_eq_none.mp (by simpa using hsm)
          rw [this] at hs
          simp at hs
      · rw [if_neg hk]
        by_cases hsm : (alistGet st.sourceMap result).isSome = true
        · rw [if_pos hsm]; exact hs
        · rw [if_neg hsm, alistGet_alistSet_ne _ _ _ _ hk]
          exact hs
  · rw [enhancedStep_filtered domain fr mr st result (by simpa using hfil)]
    exact hs

theorem enhancedPhase_uniqueMap_mono (domain : String)
    (fr mr : Option (List (String → Bool))) :
    ∀ (results : List String) (st : AggState) (h : String) (e : HostEntry),
    alistGet st.uniqueMap h = some e →
    alistGet (enhancedPhase domain fr mr st results).uniqueMap h = some e := by
  intro results
  induction results with
  | nil => intro st h e hget; exact hget
  | cons r rest ih =>
      intro st h e hget
      exact ih (enhancedStep domain fr mr st r) h e
        (enhancedStep_uniqueMap_mono domain fr mr st r h e hget)

theorem enhancedPhase_sourceMap_mono (domain : String)
    (fr mr : Option (List (String → Bool))) :
    ∀ (results : List String) (st : AggState) (h s : String),
    s ∈ (alistGet st.sourceMap h).getD [] →
    s ∈ (alistGet (enhancedPhase domain fr mr st results).sourceMap h).getD [] := by
  intro results
  induction results with
  | nil => intro st h s hs; exact hs
  | cons r rest ih =>
      intro st h s hs
      exact ih (enhancedStep domain fr mr st r) h s
        (enhancedStep_sourceMap_mono domain fr mr st r h s hs)

/-- C8 amended: every host first discovered by the enhanced stages
(brute force, permutation or recursive — all merged by
`EnhancedEnumerate`) is recorded in the accepted map with the single
source name "enhanced", and "enhanced" is recorded in its attribution
set; the per-stage names of the claim are never used. -/
theorem c8_enhanced_source_amended (domain : String)
    (fr mr : Option (List (String → Bool))) :
    ∀ (results : List String) (st : AggState) (h : String) (e : HostEntry),
    alistGet (enhancedPhase domain fr mr st results).uniqueMap h = some e →
    alistGet st.uniqueMap h = none →
    e = ⟨domain, h, "enhanced"⟩ ∧
    "enhanced" ∈ (alistGet (enhancedPhase domain fr mr st results).sourceMap h).getD [] := by
  intro results
  induction results with
  | nil =>
      intro st h e hget hnone
      rw [enhancedPhase, List.foldl_nil] at hget
      rw [hnone] at hget
      cases hget
  | cons r rest ih =>
      intro st h e hget hnone
      have hphase : enhancedPhase domain fr mr st (r :: rest) =
          enhancedPhase domain fr mr (enhancedStep domain fr mr st r) rest := rfl
      by_cases hstep : alistGet (enhancedStep domain fr mr st r).uniqueMap h = none
      · rw [hphase] at hget ⊢
        exact ih (enhancedStep domain fr mr st r) h e hget hstep
      · have hfil : filterAndMatchSubdomain fr mr r = true := by
          by_cases hf : filterAndMatchSubdomain fr mr r = true
          · exact hf
          · rw [enhancedStep_filtered domain fr mr st r (by simpa using hf)] at hstep
            exact absurd hnone hstep
        have hnoneR : alistGet st.uniqueMap r = none := by
          by_cases hd : (alistGet st.uniqueMap r).isSome = true
          · rw [enhancedStep_dup domain fr mr st r hfil hd] at hstep
            exact absurd hnone hstep
          · exact Option.not_isSome_iff_eq_none.mp (by simpa using hd)
        have hrh : r = h := by
          by_contra hk
          rw [enhancedStep_new domain fr mr st r hfil hnoneR] at hstep
          exact hstep (by
            show alistGet (alistSet st.uniqueMap r _) h = none
            rw [alistGet_alistSet_ne _ _ _ _ hk]
            exact hnone)
        subst hrh
        have hentry : alistGet (enhancedStep domain fr mr st r).uniqueMap r =
            some ⟨domain, r, "enhanced"⟩ := by
          rw [enhancedStep_new domain fr mr st r hfil hnoneR]
          exact alistGet_alistSet_self _ _ _
        have hsrc : "enhanced" ∈
            (alistGet (enhancedStep domain fr mr st r).sourceMap r).getD [] := by
          rw [enhancedStep_new domain fr mr st r hfil hnoneR]
          show "enhanced" ∈ (alistGet (addSource _ r "enhanced") r).getD []
          rw [alistGet_addSource, if_pos rfl, Option.getD_some]
          by_cases hmem : "enhanced" ∈
              (alistGet (if (alistGet st.sourceMap r).isSome then st.sourceMap
                         else alistSet st.sourceMap r []) r).getD []
          · rw [if_pos hmem]; exact hmem
          · rw [if_neg hmem]; exact List.mem_append_right _ (by simp)
        have hfinal := enhancedPhase_uniqueMap_mono domain fr mr rest
          (enhancedStep domain fr mr st r) r _ hentry
        rw [hphase] at hget
        rw [hfinal] at hget
        injection hget with hget
        refine ⟨hget.symm, ?_⟩
        rw [hphase]
        exact enhancedPhase_sourceMap_mono domain fr mr rest
          (enhancedStep domain fr mr st r) r "enhanced" hsrc

/-! ### The brute forcer (pkg/bruteforce, claim C6)

DNS is an oracle `String → Option (List String)`: `none` is a failed
lookup (NXDOMAIN/timeout), `some ips` a successful one. -/

/-- A `bruteforce.Result` carrying the surviving addresses. -/
structure BruteResult where
  subdomain : String
  ips : List String
deriving DecidableEq

/-- Address filtering of the worker (part_003 lines 108-114): keep the
addresses that are not in the wildcard fingerprint. -/
def filterWildcardIPs (wildcardIPs ips : List String) : List String :=
  ips.filter (fun ip => ¬ ip ∈ wildcardIPs)

/-- One worker iteration of `BruteForce` (part_003 lines 101-121): a
failed lookup drops the candidate silently; a successful one emits the
candidate with the non-wildcard remainder iff that remainder is
non-empty. -/
def bruteWorkerStep (wildcardIPs : List String) (dns : String → Option (List String))
    (fullDomain : String) : Option BruteResult :=
  match dns fullDomain with
  | none => none
  | some ips =>
      let filteredIPs := filterWildcardIPs wildcardIPs ips
      if filteredIPs.length > 0 then some ⟨fullDomain, filteredIPs⟩ else none

/-- `DetectWildcards` (part_003 lines 48-73): the fingerprint is the set
union of the addresses successfully resolved for the probe labels. -/
def detectWildcards (dns : String → Option (List String)) (domain : String)
    (testLabels : List String) : List String :=
  testLabels.foldl
    (fun acc t =>
      match dns (t ++ "." ++ domain) with
      | some ips =>
          if ips.length > 0 then
            ips.foldl (fun a ip => if ip ∈ a then a else a ++ [ip]) acc
          else acc
      | none => acc) []

/-- `BruteForce` (part_003 lines 76-142) as the collection of emitted
results over the wordlist, after wildcard detection. -/
def bruteForce (dns : String → Option (List String)) (domain : String)
    (testLabels wordlist : List String) : List BruteResult :=
  wordlist.filterMap
    (fun w => bruteWorkerStep (detectWildcards dns domain testLabels) dns
      (w ++ "." ++ domain))

/-- C6: every emitted brute-force result carries exactly the resolved
addresses minus the wildcard fingerprint and at least one resolved
address outside the fingerprint (so no emitted host has all of its
addresses inside the fingerprint); conversely a candidate whose
remainder is non-empty is emitted. -/
theorem c6_brute_wildcard_correct (dns : String → Option (List String))
    (domain : String) (testLabels wordlist : List String) :
    (∀ r ∈ bruteForce dns domain testLabels wordlist,
      ∃ w ∈ wordlist, r.subdomain = w ++ "." ++ domain ∧
      ∃ ips, dns r.subdomain = some ips ∧
        r.ips = filterWildcardIPs (detectWildcards dns domain testLabels) ips ∧
        r.ips ≠ [] ∧
        ∃ ip ∈ ips, ip ∉ detectWildcards dns domain testLabels) ∧
    (∀ w ∈ wordlist, ∀ ips, dns (w ++ "." ++ domain) = some ips →
      filterWildcardIPs (detectWildcards dns domain testLabels) ips ≠ [] →
      (⟨w ++ "." ++ domain,
        filterWildcardIPs (detectWildcards dns domain testLabels) ips⟩ : BruteResult) ∈
        bruteForce dns domain testLabels wordlist) := by
  constructor
  · intro r hr
    rw [bruteForce, List.mem_filterMap] at hr
    obtain ⟨w, hw, hstep⟩ := hr
    refine ⟨w, hw, ?_⟩
    rw [bruteWorkerStep] at hstep
    cases hdns : dns (w ++ "." ++ domain) with
    | none => rw [hdns] at hstep; cases hstep
    | some ips =>
        rw [hdns] at hstep
        simp only at hstep
        by_cases hlen :
            (filterWildcardIPs (detectWildcards dns domain testLabels) ips).length > 0
        · rw [if_pos hlen] at hstep
          injection hstep with hstep
          subst hstep
          have hne : filterWildcardIPs (detectWildcards dns domain testLabels) ips ≠ [] := by
            intro hnil
            rw [hnil] at hlen
            simp at hlen
          refine ⟨rfl, ips, hdns, rfl, hne, ?_⟩
          obtain ⟨ip, hip⟩ := List.exists_mem_of_ne_nil _ hne
          rw [filterWildcardIPs, List.mem_filter] at hip
          exact ⟨ip, hip.1, by simpa using hip.2⟩
        · rw [if_neg hlen] at hstep
          cases hstep
  · intro w hw ips hdns hne
    rw [bruteForce, List.mem_filterMap]
    refine ⟨w, hw, ?_⟩
    rw [bruteWorkerStep, hdns]
    simp only
    rw [if_pos (by
      cases hfil : filterWildcardIPs (detectWildcards dns domain testLabels) ips with
      | nil => exact absurd hfil hne
      | cons a l => simp)]

/-- The DNS oracle of specification scenario 4: the wildcard probe and
dev.example.com resolve to the fingerprint address 1.2.3.4, while
api.example.com resolves to 9.9.9.9. -/
def scenario4Dns : String → Option (List String) :=
  fun s =>
    if s = "probe1.example.com" then some ["1.2.3.4"]
    else if s = "dev.example.com" then some ["1.2.3.4"]
    else if s = "api.example.com" then some ["9.9.9.9"]
    else none

/-- Witness for C6 on scenario 4: api.example.com is emitted with
address 9.9.9.9 and the theorem applies to it. -/
theorem c6_brute_wildcard_correct_witness :
    "api" ∈ ["dev", "api"] ∧
    scenario4Dns ("api" ++ "." ++ "example.com") = some ["9.9.9.9"] ∧
    filterWildcardIPs (detectWildcards scenario4Dns "example.com" ["probe1"])
      ["9.9.9.9"] ≠ [] ∧
    (⟨"api" ++ "." ++ "example.com",
      filterWildcardIPs (detectWildcards scenario4Dns "example.com" ["probe1"])
        ["9.9.9.9"]⟩ : BruteResult) ∈
      bruteForce scenario4Dns "example.com" ["probe1"] ["dev", "api"] :=
  ⟨by decide, by decide, by decide,
   (c6_brute_wildcard_correct scenario4Dns "example.com" ["probe1"] ["dev", "api"]).2
     "api" (by decide) ["9.9.9.9"] (by decide) (by decide)⟩

/-- Evaluation of scenario 4: dev.example.com (wildcard-only addresses)
is dropped, api.example.com survives. -/
theorem c6_scenario4_eval :
    bruteForce scenario4Dns "example.com" ["probe1"] ["dev", "api"] =
      [⟨"api.example.com", ["9.9.9.9"]⟩] := by decide

/-! ### The result cache (pkg/cache/cache.go, claim C9)

The cache directory is a store from key to entry; time is an integer
clock (`time.Since(ts) > ttl` is `now - ts > ttl`).  `generateCacheKey`
is `md5hex(domain + ":" + source)` in Go; the model keeps the preimage
string as the key. -/

structure CacheEntry where
  domain : String
  results : List String
  timestamp : Int
deriving DecidableEq

def generateCacheKey (domain source : String) : String :=
  domain ++ ":" ++ source

/-- `Cache.Set` (cache.go 76-93): write the entry under the key. -/
def cacheSet (store : List (String × CacheEntry)) (now : Int) (domain source : String)
    (results : List String) : List (String × CacheEntry) :=
  alistSet store (generateCacheKey domain source) ⟨domain, results, now⟩

/-- `Cache.Get` (cache.go 45-73): miss on an absent key; when the age
exceeds the TTL, remove the entry and miss; otherwise hit. -/
def cacheGet (store : List (String × CacheEntry)) (now ttl : Int) (domain source : String) :
    List (String × CacheEntry) × Option (List String) :=
  match alistGet store (generateCacheKey domain source) with
  | none => (store, none)
  | some entry =>
      if now - entry.timestamp > ttl then
        (alistRemove store (generateCacheKey domain source), none)
      else (store, some entry.results)

/-- C9: after `Set(D, s, R)` at time t0, a `Get(D, s)` at time t1 with
age within the TTL hits and returns R unchanged; with age beyond the TTL
it misses and deletes the entry from the store. -/
theorem c9_cache_roundtrip (store : List (String × CacheEntry)) (t0 t1 ttl : Int)
    (domain source : String) (results : List String) :
    (t1 - t0 ≤ ttl →
      cacheGet (cacheSet store t0 domain source results) t1 ttl domain source =
        (cacheSet store t0 domain source results, some results)) ∧
    (t1 - t0 > ttl →
      (cacheGet (cacheSet store t0 domain source results) t1 ttl domain source).2 = none ∧
      alistGet (cacheGet (cacheSet store t0 domain source results) t1 ttl domain source).1
        (generateCacheKey domain source) = none) := by
  have hget : alistGet (cacheSet store t0 domain source results)
      (generateCacheKey domain source) = some ⟨domain, results, t0⟩ :=
    alistGet_alistSet_self _ _ _
  constructor
  · intro hfresh
    rw [cacheGet, hget]
    simp only
    rw [if_neg (by omega)]
  · intro hexpired
    rw [cacheGet, hget]
    simp only
    rw [if_pos (by omega)]
    exact ⟨rfl, by rw [alistGet_alistRemove, if_pos rfl]⟩

/-- Witness for C9: a hit one tick after writing with TTL five, and a
delete-and-miss ten ticks after writing. -/
theorem c9_cache_roundtrip_witness :
    ((1 : Int) - 0 ≤ 5 ∧
      cacheGet (cacheSet [] 0 "example.com" "crtsh" ["a.example.com"]) 1 5
        "example.com" "crtsh" =
      (cacheSet [] 0 "example.com" "crtsh" ["a.example.com"], some ["a.example.com"])) ∧
    ((10 : Int) - 0 > 5 ∧
      (cacheGet (cacheSet [] 0 "example.com" "crtsh" ["a.example.com"]) 10 5
        "example.com" "crtsh").2 = none ∧
      alistGet (cacheGet (cacheSet [] 0 "example.com" "crtsh" ["a.example.com"]) 10 5
        "example.com" "crtsh").1 (generateCacheKey "example.com" "crtsh") = none) :=
  ⟨⟨by decide,
    (c9_cache_roundtrip [] 0 1 5 "example.com" "crtsh" ["a.example.com"]).1 (by decide)⟩,
   ⟨by decide,
    (c9_cache_roundtrip [] 0 10 5 "example.com" "crtsh" ["a.example.com"]).2 (by decide)⟩⟩

/-! ### Concrete pipeline for claim C8 -/

/-- A DNS oracle for a brute-force discovery of www.example.com. -/
def c8Dns : String → Option (List String) :=
  fun s => if s = "www.example.com" then some ["9.9.9.9"] else none

/-- C8 counterexample: a host first discovered by the brute-force stage
(www.example.com, emitted by `BruteForce` and merged by
`EnhancedEnumerate`) is recorded in the accepted map and attribution map
with source name "enhanced", not "brute". -/
theorem c8_enhanced_source_counterexample :
    (bruteForce c8Dns "example.com" ["probe1"] ["www"]).map BruteResult.subdomain =
      ["www.example.com"] ∧
    alistGet (enhancedPhase "example.com" none none initState
        (enhancedEnumerate [] ["www.example.com"])).uniqueMap "www.example.com" =
      some ⟨"example.com", "www.example.com", "enhanced"⟩ ∧
    alistGet (enhancedPhase "example.com" none none initState
        (enhancedEnumerate [] ["www.example.com"])).sourceMap "www.example.com" =
      some ["enhanced"] ∧
    "enhanced" ≠ "brute" ∧ "enhanced" ≠ "permutation" ∧ "enhanced" ≠ "recursive" := by
  decide

/-- Witness for the amended C8 statement at the same concrete run. -/
theorem c8_enhanced_source_amended_witness :
    alistGet (enhancedPhase "example.com" none none initState
        ["www.example.com"]).uniqueMap "www.example.com" =
      some ⟨"example.com", "www.example.com", "enhanced"⟩ ∧
    alistGet initState.uniqueMap "www.example.com" = none ∧
    (⟨"example.com", "www.example.com", "enhanced"⟩ : HostEntry) =
      ⟨"example.com", "www.example.com", "enhanced"⟩ ∧
    "enhanced" ∈ (alistGet (enhancedPhase "example.com" none none initState
        ["www.example.com"]).sourceMap "www.example.com").getD [] :=
  ⟨by decide, by decide,
   (c8_enhanced_source_amended "example.com" none none ["www.example.com"] initState
      "www.example.com" ⟨"example.com", "www.example.com", "enhanced"⟩
      (by decide) (by decide)).1,
   (c8_enhanced_source_amended "example.com" none none ["www.example.com"] initState
      "www.example.com" ⟨"example.com", "www.example.com", "enhanced"⟩
      (by decide) (by decide)).2⟩

end Stormfinder
